import Mathlib

/-!
Verification of the external merge sorter `Order::Sorter2048<K, C>`
(`src/order.hpp`).

Records of type `K` are compared by a strict-weak-order predicate
`lt : K → K → Bool` (the C++ comparator `C`).  Batches are modelled as
`List K` (a `BatchEntry`'s contents), run files as the `List K` they
contain, and the `std::multiset<Job>` registry as a list kept sorted by
`Job::operator<`.  The coordinator loop `manage_sorting`, the drain
`finish` and the streamer `execute` are translated step by step below.
-/

namespace Sorter2048

variable {K : Type}

/-- `merge_to_file`: merge two in-memory sorted ranges and write to file.
Takes from the first range while `C()(*b1, *b2)` holds, otherwise from the
second; leftovers are flushed verbatim. -/
def merge_to_file (lt : K → K → Bool) : List K → List K → List K
  | [], l2 => l2
  | a :: l1, [] => a :: l1
  | a :: l1, b :: l2 =>
    if lt a b then a :: merge_to_file lt l1 (b :: l2)
    else b :: merge_to_file lt (a :: l1) l2
termination_by l1 l2 => l1.length + l2.length

/-- `merge_files`: merge two sorted files into an output file.  Reads one
item at a time from each stream; the branch structure is the same as
`merge_to_file`: the item from the first file is written when
`C()(k1, k2)` holds, otherwise the item from the second file. -/
def merge_files (lt : K → K → Bool) : List K → List K → List K
  | [], l2 => l2
  | a :: l1, [] => a :: l1
  | a :: l1, b :: l2 =>
    if lt a b then a :: merge_files lt l1 (b :: l2)
    else b :: merge_files lt (a :: l1) l2
termination_by l1 l2 => l1.length + l2.length

/-- `Job`: a registry descriptor with a run id and a merge level. -/
structure Job where
  id : Nat
  level : Nat
deriving Repr, DecidableEq

/-- `Job::operator<`: level ascending; among equal levels, id descending
("Higher ID has lower priority" resp. "Higher level has lower priority"). -/
def jobLT (a b : Job) : Bool :=
  if a.level == b.level then decide (b.id < a.id)
  else decide (a.level < b.level)

/-- `Job::filename`: `std::to_string(id) + "_" + std::to_string(level) + ".tmp"`. -/
def Job.filename (j : Job) : String :=
  toString j.id ++ "_" ++ toString j.level ++ ".tmp"

/-- A live registry entry together with the contents of its run file on
disk (file contents are attached to the descriptor because a registry
entry and its run file are created and deleted together). -/
structure Entry (K : Type) where
  job : Job
  contents : List K

/-- `std::multiset<Job>::insert` on the registry kept as a list sorted by
`Job::operator<`.  Run ids are unique, so no two jobs ever compare
equivalent and the insertion position is uniquely determined. -/
def insertJQ (e : Entry K) : List (Entry K) → List (Entry K)
  | [] => [e]
  | x :: xs => if jobLT x.job e.job then x :: insertJQ e xs else e :: x :: xs

theorem insertJQ_length (e : Entry K) (l : List (Entry K)) :
    (insertJQ e l).length = l.length + 1 := by
  induction l with
  | nil => rfl
  | cons x xs ih =>
    simp only [insertJQ]
    by_cases h : jobLT x.job e.job
    · simp [h, ih]
    · simp [h]

/-- The mutable state of a `Sorter2048` object: the ingestion queue
`push_queue`, the FIFO `waitroom`, the registry `JQ` (sorted list), and
the next run id `job_idx`.  `runs0` is a ghost counter of level-0 runs
created so far (used to state the scale property). -/
structure SorterState (K : Type) where
  push_queue : List (List K)
  waitroom : List (List K)
  JQ : List (Entry K)
  job_idx : Nat
  runs0 : Nat

/-- The freshly constructed sorter: everything empty, `job_idx = 0`. -/
def initState (K : Type) : SorterState K :=
  ⟨[], [], [], 0, 0⟩

/-- The `≤` relation induced by the comparator, as used by `std::sort`'s
postcondition: consecutive elements `a, b` of the output satisfy
`¬ lt b a`. -/
def stdSortLe (lt : K → K → Bool) (a b : K) : Bool := !(lt b a)

/-- `std::sort(job.from, job.to, C())`: an unspecified sorted permutation
of the batch; we fix merge sort as the representative implementation. -/
def stdSort (lt : K → K → Bool) (l : List K) : List K :=
  l.mergeSort (stdSortLe lt)

/-- Batch Stager part of one `manage_sorting` iteration: dequeue at most
one batch from `push_queue`, sort it, push it onto the waitroom. -/
def stagerStep (lt : K → K → Bool) (s : SorterState K) : SorterState K :=
  match s.push_queue with
  | [] => s
  | b :: rest =>
    { s with push_queue := rest, waitroom := s.waitroom ++ [stdSort lt b] }

/-- Run Writer part of one `manage_sorting` iteration, with the outcome of
the `std::ofstream` open made explicit as `okWrite`.  When
`waitroom.size() > 1`: first `Job j{job_idx++, 0}` consumes a run id, then
the output file is opened; on failure the iteration `continue`s — note the
open check happens before any `waitroom.pop()`, so the waitroom is left
unchanged.  On success the two front batches are popped, merged with
`merge_to_file` (older batch as first input) and the new level-0 job is
inserted. -/
def runWriterStepF (lt : K → K → Bool) (okWrite : Bool) (s : SorterState K) :
    SorterState K :=
  match s.waitroom with
  | b1 :: b2 :: rest =>
    if okWrite then
      { s with job_idx := s.job_idx + 1, waitroom := rest,
               JQ := insertJQ ⟨⟨s.job_idx, 0⟩, merge_to_file lt b1 b2⟩ s.JQ,
               runs0 := s.runs0 + 1 }
    else
      { s with job_idx := s.job_idx + 1 }
  | _ => s

/-- Level Balancer inner loop of `manage_sorting`, failure-free case:
while the registry holds more than one entry and the first two share a
level, replace them by their merge at `level + 1` under a fresh id;
otherwise break. -/
def balanceLoop (lt : K → K → Bool) : List (Entry K) → Nat → List (Entry K) × Nat
  | e1 :: e2 :: rest, idx =>
    if e1.job.level == e2.job.level then
      balanceLoop lt
        (insertJQ ⟨⟨idx, e1.job.level + 1⟩,
          merge_files lt e1.contents e2.contents⟩ rest)
        (idx + 1)
    else (e1 :: e2 :: rest, idx)
  | jq, idx => (jq, idx)
termination_by jq _ => jq.length
decreasing_by simp [insertJQ_length]

/-- One iteration of `Level Balancer` with the outcomes of the three file
opens made explicit (`okOut` for the destination `std::ofstream`, `okIn`
for the two source `std::ifstream`s).  The two smallest entries are
erased first; `Job merged{job_idx++, job1.level + 1}` consumes a run id;
on either open failure both jobs are reinserted (`JQ.insert(job1);
JQ.insert(job2)`) and the loop `continue`s. -/
def balanceStepF (lt : K → K → Bool) (okOut okIn : Bool)
    (jq : List (Entry K)) (idx : Nat) : List (Entry K) × Nat :=
  match jq with
  | e1 :: e2 :: rest =>
    if e1.job.level == e2.job.level then
      if okOut then
        if okIn then
          (insertJQ ⟨⟨idx, e1.job.level + 1⟩,
            merge_files lt e1.contents e2.contents⟩ rest, idx + 1)
        else (insertJQ e2 (insertJQ e1 rest), idx + 1)
      else (insertJQ e2 (insertJQ e1 rest), idx + 1)
    else (jq, idx)
  | _ => (jq, idx)

/-- One full failure-free iteration of the `manage_sorting` while-loop:
Batch Stager, then Run Writer, then the Level Balancer loop. -/
def manageIter (lt : K → K → Bool) (s : SorterState K) : SorterState K :=
  let s1 := stagerStep lt s
  let s2 := runWriterStepF lt true s1
  let p := balanceLoop lt s2.JQ s2.job_idx
  { s2 with JQ := p.1, job_idx := p.2 }

/-- An externally visible event: a producer's `push` (which copies the
caller's range into a fresh batch and enqueues it) or one coordinator
iteration. -/
inductive Op (K : Type) where
  | push (b : List K)
  | tick

/-- Apply one event to the sorter state. -/
def applyOp (lt : K → K → Bool) (s : SorterState K) : Op K → SorterState K
  | Op.push b => { s with push_queue := s.push_queue ++ [b] }
  | Op.tick => manageIter lt s

/-- Run an execution: any interleaving of pushes and coordinator
iterations from the initial state. -/
def runOps (lt : K → K → Bool) (ops : List (Op K)) : SorterState K :=
  ops.foldl (applyOp lt) (initState K)

/-- All records ever pushed during an execution, in push order. -/
def pushedRecords : List (Op K) → List K
  | [] => []
  | Op.push b :: ops => b ++ pushedRecords ops
  | Op.tick :: ops => pushedRecords ops

/-- First drain loop of `finish`: dequeue every batch still in
`push_queue`, sort it, push it onto the waitroom. -/
def drainQueueLoop (lt : K → K → Bool) (s : SorterState K) : SorterState K :=
  match h : s.push_queue with
  | [] => s
  | b :: rest =>
    drainQueueLoop lt
      { s with push_queue := rest, waitroom := s.waitroom ++ [stdSort lt b] }
termination_by s.push_queue.length
decreasing_by simp [h]

/-- Second drain loop of `finish`: write each waitroom batch verbatim
(`write_batch_to_file`) as its own level-0 run under a fresh id and insert
it into the registry. -/
def drainWaitroomLoop (s : SorterState K) : SorterState K :=
  match h : s.waitroom with
  | [] => s
  | b :: rest =>
    drainWaitroomLoop
      { s with waitroom := rest,
               JQ := insertJQ ⟨⟨s.job_idx, 0⟩, b⟩ s.JQ,
               job_idx := s.job_idx + 1, runs0 := s.runs0 + 1 }
termination_by s.waitroom.length
decreasing_by simp [h]

/-- Final merge loop of `finish`, failure-free case: while more than one
entry remains, pop the two smallest regardless of level equality and merge
them into a run at level `max(job1.level, job2.level)`, incremented when
the two levels are equal. -/
def finishLoop (lt : K → K → Bool) : List (Entry K) → Nat → List (Entry K) × Nat
  | e1 :: e2 :: rest, idx =>
    finishLoop lt
      (insertJQ ⟨⟨idx, if e1.job.level == e2.job.level then
          max e1.job.level e2.job.level + 1 else max e1.job.level e2.job.level⟩,
        merge_files lt e1.contents e2.contents⟩ rest)
      (idx + 1)
  | jq, idx => (jq, idx)
termination_by jq _ => jq.length
decreasing_by simp [insertJQ_length]

/-- One iteration of the `finish` merge loop with the file-open outcomes
explicit, mirroring `balanceStepF`: on either open failure both jobs are
reinserted unchanged. -/
def finishStepF (lt : K → K → Bool) (okOut okIn : Bool)
    (jq : List (Entry K)) (idx : Nat) : List (Entry K) × Nat :=
  match jq with
  | e1 :: e2 :: rest =>
    let t0 := max e1.job.level e2.job.level
    if okOut then
      if okIn then
        (insertJQ ⟨⟨idx, if e1.job.level == e2.job.level then t0 + 1 else t0⟩,
          merge_files lt e1.contents e2.contents⟩ rest, idx + 1)
      else (insertJQ e2 (insertJQ e1 rest), idx + 1)
    else (insertJQ e2 (insertJQ e1 rest), idx + 1)
  | _ => (jq, idx)

/-- `finish` after `done.store(true)` and the join: drain the ingestion
queue, drain the waitroom, then run the unconditional merge loop. -/
def finishState (lt : K → K → Bool) (s : SorterState K) : SorterState K :=
  let s1 := drainQueueLoop lt s
  let s2 := drainWaitroomLoop s1
  let p := finishLoop lt s2.JQ s2.job_idx
  { s2 with JQ := p.1, job_idx := p.2 }

/-- The path `finish` returns: `work_file_prefix + JQ.begin()->filename()`.
`none` models the case of an empty registry, where `JQ.begin()` is the end
iterator and dereferencing it is undefined behaviour in the C++. -/
def finishPath (pre : String) (lt : K → K → Bool) (s : SorterState K) :
    Option String :=
  match (finishState lt s).JQ with
  | [] => none
  | e :: _ => some (pre ++ e.job.filename)

/-- `execute(f)`: open the file named by `JQ.begin()` and stream its
records to the callback in file order; the result is the list of records
delivered.  `none` models the empty-registry case (no run file exists, so
either `JQ.begin()` is invalid or the open fails and execute returns
having delivered nothing). -/
def executeRecords (s : SorterState K) : Option (List K) :=
  match s.JQ with
  | [] => none
  | e :: _ => some e.contents

/-! ### Derived state predicates and model instances -/

/-- A run (or a sorted batch) is sorted as the spec states the order
property: for adjacent `a` then `b`, `less(b, a)` is false.  We use the
`Pairwise` form. -/
def SortedRun (lt : K → K → Bool) (l : List K) : Prop :=
  l.Pairwise (fun a b => lt b a = false)

/-- The registry, as a list, is sorted by `Job::operator<`: every earlier
entry is not greater than any later one. -/
def SortedJQ (l : List (Entry K)) : Prop :=
  l.Pairwise (fun a b => jobLT b.job a.job = false)

/-- A concrete record type for witnesses: a payload tag paired with a
key, compared by the key only — the shape of `stintp` with `compair` in
`main.cpp` (which compares only the `int` component). -/
def pairLT (a b : Nat × Nat) : Bool := decide (a.2 < b.2)

/-- Plain `<` on naturals, a concrete strict weak order for witnesses. -/
def natLT (a b : Nat) : Bool := decide (a < b)

/-- A concrete state with two batches staged in the waitroom and nothing
else, used to exercise the Run Writer failure path. -/
def wrState : SorterState Nat := ⟨[], [[1], [2]], [], 7, 0⟩

/-! ### Record conservation and sortedness invariants -/

/-- The records held by the run files of a registry fragment. -/
def JQrecords (jq : List (Entry K)) : List K :=
  (jq.map Entry.contents).flatten

/-- All records currently owned by the sorter: queued batches, staged
batches, and run files. -/
def liveRecords (s : SorterState K) : List K :=
  s.push_queue.flatten ++ s.waitroom.flatten ++ JQrecords s.JQ

/-- Every staged batch and every run file is sorted. -/
def RunsSorted (lt : K → K → Bool) (s : SorterState K) : Prop :=
  (∀ b ∈ s.waitroom, SortedRun lt b) ∧ (∀ e ∈ s.JQ, SortedRun lt e.contents)

/-- The registry's entries have strictly increasing levels (hence
pairwise distinct levels, the registry being sorted by level). -/
def LevelsStrict (jq : List (Entry K)) : Prop :=
  jq.Pairwise (fun a b => a.job.level < b.job.level)

/-- Every run id in the registry is below the id counter. -/
def idsBelow (jq : List (Entry K)) (n : Nat) : Prop :=
  ∀ e ∈ jq, e.job.id < n

/-- The number of level-0 runs merged into the registry's runs: a level-k
run is a merge of `2^k` level-0 runs. -/
def sumWeights (jq : List (Entry K)) : Nat :=
  (jq.map (fun e => 2 ^ e.job.level)).sum

/-- The coordinator's registry invariant: strictly distinct levels, run
ids below the counter, and total weight equal to the number of level-0
runs created. -/
def CounterInv (s : SorterState K) : Prop :=
  LevelsStrict s.JQ ∧ idsBelow s.JQ s.job_idx ∧ sumWeights s.JQ = s.runs0

/-- One store into a flat heap of records. -/
def heapUpdate (h : Nat → K) (a : Nat) (v : K) : Nat → K :=
  fun x => if x = a then v else h x

/-- `std::copy(first, last, d_first)` on a flat heap: `n` records are
copied one at a time in increasing address order, reading from the
evolving heap (source and destination cursors advance together). -/
def stdCopy (h : Nat → K) (src dst : Nat) : Nat → (Nat → K)
  | 0 => h
  | n + 1 => stdCopy (heapUpdate h dst (h src)) (src + 1) (dst + 1) n

/-- The body of `push(from, to)` on the heap model: `std::distance`
yields the count `hi - lo`, `new K[n]` returns a fresh buffer at address
`fresh`, `std::copy(from, to, be.from)` fills it; the enqueued
`BatchEntry` is the address pair `(fresh, fresh + n)`. -/
def pushCopy (h : Nat → K) (lo hi fresh : Nat) : (Nat → K) × Nat × Nat :=
  (stdCopy h lo fresh (hi - lo), fresh, fresh + (hi - lo))

/-! ### Basic lemmas about the merges and the registry -/


theorem merge_files_eq (lt : K → K → Bool) (l1 l2 : List K) :
    merge_files lt l1 l2 = merge_to_file lt l1 l2 := by
  induction l1, l2 using merge_to_file.induct lt with
  | _ => simp_all [merge_files, merge_to_file]

theorem merge_to_file_perm (lt : K → K → Bool) (l1 l2 : List K) :
    (merge_to_file lt l1 l2).Perm (l1 ++ l2) := by
  induction l1, l2 using merge_to_file.induct lt with
  | case1 l2 => simp [merge_to_file]
  | case2 a l1 => simp [merge_to_file]
  | case3 a l1 b l2 h ih =>
    simpa [merge_to_file, h] using ih.cons a
  | case4 a l1 b l2 h ih =>
    simp only [merge_to_file, h, if_false]
    exact (ih.cons b).trans List.perm_middle.symm

theorem merge_to_file_sorted (lt : K → K → Bool)
    (htr : ∀ a b c, lt b a = false → lt c b = false → lt c a = false)
    (hasym : ∀ a b, lt a b = true → lt b a = false)
    (l1 l2 : List K) (h1 : SortedRun lt l1) (h2 : SortedRun lt l2) :
    SortedRun lt (merge_to_file lt l1 l2) := by
  induction l1, l2 using merge_to_file.induct lt with
  | case1 l2 => simpa [merge_to_file] using h2
  | case2 a l1 => simpa [merge_to_file] using h1
  | case3 a l1 b l2 h ih =>
    simp only [SortedRun, merge_to_file, h, if_true, List.pairwise_cons]
    simp only [SortedRun, List.pairwise_cons] at h1
    constructor
    · intro z hz
      have hz' := (merge_to_file_perm lt l1 (b :: l2)).mem_iff.mp hz
      rcases List.mem_append.mp hz' with hzl | hzr
      · exact h1.1 z hzl
      · rcases List.mem_cons.mp hzr with hz2 | hz2
        · subst hz2; exact hasym a z h
        · simp only [SortedRun, List.pairwise_cons] at h2
          exact htr a b z (hasym a b h) (h2.1 z hz2)
    · exact ih h1.2 h2
  | case4 a l1 b l2 h ih =>
    have hf : lt a b = false := by simpa using h
    simp only [SortedRun, merge_to_file, h, if_false, List.pairwise_cons]
    simp only [SortedRun, List.pairwise_cons] at h2
    constructor
    · intro z hz
      have hz' := (merge_to_file_perm lt (a :: l1) l2).mem_iff.mp hz
      rcases List.mem_append.mp hz' with hzl | hzr
      · rcases List.mem_cons.mp hzl with hz1 | hz1
        · subst hz1; exact hf
        · simp only [SortedRun, List.pairwise_cons] at h1
          exact htr b a z hf (h1.1 z hz1)
      · exact h2.1 z hzr
    · exact ih h1 h2.2

theorem stdSort_perm (lt : K → K → Bool) (l : List K) :
    (stdSort lt l).Perm l :=
  List.mergeSort_perm l (stdSortLe lt)

theorem stdSort_sorted (lt : K → K → Bool)
    (htr : ∀ a b c, lt b a = false → lt c b = false → lt c a = false)
    (hasym : ∀ a b, lt a b = true → lt b a = false)
    (l : List K) : SortedRun lt (stdSort lt l) := by
  have h := @List.sorted_mergeSort K (stdSortLe lt)
    (fun a b c hab hbc => by
      simp only [stdSortLe, Bool.not_eq_true', Bool.not_eq_false'] at *
      exact htr _ _ _ hab hbc)
    (fun a b => by
      simp only [stdSortLe]
      rcases hba : lt b a with _ | _
      · simp
      · simp [hasym b a hba]) l
  refine List.Pairwise.imp ?_ h
  intro a b hab
  simpa [stdSortLe] using hab

theorem insertJQ_perm (e : Entry K) (l : List (Entry K)) :
    (insertJQ e l).Perm (e :: l) := by
  induction l with
  | nil => simp [insertJQ]
  | cons x xs ih =>
    simp only [insertJQ]
    by_cases h : jobLT x.job e.job
    · simp only [h, if_true]
      exact (ih.cons x).trans (List.Perm.swap e x xs)
    · simp [h]

theorem insertJQ_mem (e x : Entry K) (l : List (Entry K)) :
    x ∈ insertJQ e l ↔ x = e ∨ x ∈ l := by
  rw [(insertJQ_perm e l).mem_iff]
  simp

/-! ### The registry order -/


theorem jobLT_iff (a b : Job) :
    jobLT a b = true ↔ a.level < b.level ∨ (a.level = b.level ∧ b.id < a.id) := by
  simp only [jobLT, beq_iff_eq]
  by_cases h : a.level = b.level <;> simp [h]

theorem jobLT_asymm (a b : Job) (h : jobLT a b = true) : jobLT b a = false := by
  rw [jobLT_iff] at h
  rcases hc : jobLT b a with _ | _
  · rfl
  · rw [jobLT_iff] at hc; omega

theorem jobLT_neg_trans (a b c : Job) (h1 : jobLT b a = false)
    (h2 : jobLT c b = false) : jobLT c a = false := by
  rcases hc : jobLT c a with _ | _
  · rfl
  · exfalso
    rw [jobLT_iff] at hc
    have h1' : ¬ (b.level < a.level ∨ (b.level = a.level ∧ a.id < b.id)) := by
      rw [← jobLT_iff]; simp [h1]
    have h2' : ¬ (c.level < b.level ∨ (c.level = b.level ∧ b.id < c.id)) := by
      rw [← jobLT_iff]; simp [h2]
    omega

theorem jobLT_of_ne (a b : Job) (h : jobLT b a = false) (hne : a.id ≠ b.id) :
    jobLT a b = true := by
  rcases hc : jobLT a b with _ | _
  · exfalso
    have h' : ¬ (b.level < a.level ∨ (b.level = a.level ∧ a.id < b.id)) := by
      rw [← jobLT_iff]; simp [h]
    have hc' : ¬ (a.level < b.level ∨ (a.level = b.level ∧ b.id < a.id)) := by
      rw [← jobLT_iff]; simp [hc]
    omega
  · rfl

theorem insertJQ_sorted (e : Entry K) (l : List (Entry K)) (h : SortedJQ l) :
    SortedJQ (insertJQ e l) := by
  induction l with
  | nil => simp [SortedJQ, insertJQ]
  | cons x xs ih =>
    simp only [SortedJQ, List.pairwise_cons] at h
    simp only [insertJQ]
    by_cases hxe : jobLT x.job e.job
    · rw [if_pos hxe]
      simp only [SortedJQ, List.pairwise_cons]
      refine ⟨?_, ih h.2⟩
      intro z hz
      rcases (insertJQ_mem e z xs).mp hz with hz1 | hz1
      · subst hz1; exact jobLT_asymm _ _ hxe
      · exact h.1 z hz1
    · have hxe' : jobLT x.job e.job = false := by simpa using hxe
      rw [if_neg hxe]
      simp only [SortedJQ, List.pairwise_cons]
      refine ⟨?_, h.1, h.2⟩
      intro z hz
      rcases List.mem_cons.mp hz with hz1 | hz1
      · subst hz1; exact hxe'
      · exact jobLT_neg_trans _ _ _ hxe' (h.1 z hz1)

/-- Erasing the two smallest registry entries and reinserting them
(`JQ.insert(job1); JQ.insert(job2)` after the two erases) reproduces the
original registry, because under the registry order the two erased
entries sort back to the front.  Run ids are unique, whence `hne`. -/
theorem reinsert_two (e1 e2 : Entry K) (rest : List (Entry K))
    (hsort : SortedJQ (e1 :: e2 :: rest)) (hne : e1.job.id ≠ e2.job.id) :
    insertJQ e2 (insertJQ e1 rest) = e1 :: e2 :: rest := by
  simp only [SortedJQ, List.pairwise_cons] at hsort
  have h21 : jobLT e2.job e1.job = false := hsort.1 e2 (List.mem_cons_self e2 rest)
  have h12 : jobLT e1.job e2.job = true := jobLT_of_ne _ _ h21 hne
  have h1 : insertJQ e1 rest = e1 :: rest := by
    cases rest with
    | nil => rfl
    | cons r rs =>
      have hr : jobLT r.job e1.job = false :=
        hsort.1 r (List.mem_cons_of_mem e2 (List.mem_cons_self r rs))
      simp [insertJQ, hr]
  rw [h1]
  cases rest with
  | nil => simp [insertJQ, h12]
  | cons r rs =>
    have hr : jobLT r.job e2.job = false :=
      hsort.2.1 r (List.mem_cons_self r rs)
    simp [insertJQ, h12, hr]

/-! ### Concrete comparators used in witnesses -/


theorem perm_of_ms {l1 l2 : List K} (h : (l1 : Multiset K) = l2) : l1.Perm l2 :=
  Multiset.coe_eq_coe.mp h

theorem ms_of_perm {l1 l2 : List K} (h : l1.Perm l2) : (l1 : Multiset K) = l2 :=
  Multiset.coe_eq_coe.mpr h

theorem JQrecords_insertJQ (j : Job) (c : List K) (jq : List (Entry K)) :
    (JQrecords (insertJQ ⟨j, c⟩ jq)).Perm (c ++ JQrecords jq) := by
  have h := ((insertJQ_perm ⟨j, c⟩ jq).map Entry.contents).flatten
  simpa [JQrecords] using h

/-! Unfolding equations for the loops defined by well-founded recursion. -/

theorem balanceLoop_nil (lt : K → K → Bool) (idx : Nat) :
    balanceLoop lt [] idx = ([], idx) := by
  rw [balanceLoop.eq_def]

theorem balanceLoop_single (lt : K → K → Bool) (e : Entry K) (idx : Nat) :
    balanceLoop lt [e] idx = ([e], idx) := by
  rw [balanceLoop.eq_def]

theorem balanceLoop_cons (lt : K → K → Bool) (e1 e2 : Entry K)
    (rest : List (Entry K)) (idx : Nat) :
    balanceLoop lt (e1 :: e2 :: rest) idx =
      if e1.job.level == e2.job.level then
        balanceLoop lt
          (insertJQ ⟨⟨idx, e1.job.level + 1⟩,
            merge_files lt e1.contents e2.contents⟩ rest) (idx + 1)
      else (e1 :: e2 :: rest, idx) := by
  rw [balanceLoop.eq_def]

theorem finishLoop_nil (lt : K → K → Bool) (idx : Nat) :
    finishLoop lt [] idx = ([], idx) := by
  rw [finishLoop.eq_def]

theorem finishLoop_single (lt : K → K → Bool) (e : Entry K) (idx : Nat) :
    finishLoop lt [e] idx = ([e], idx) := by
  rw [finishLoop.eq_def]

theorem finishLoop_cons (lt : K → K → Bool) (e1 e2 : Entry K)
    (rest : List (Entry K)) (idx : Nat) :
    finishLoop lt (e1 :: e2 :: rest) idx =
      finishLoop lt
        (insertJQ ⟨⟨idx, if e1.job.level == e2.job.level then
            max e1.job.level e2.job.level + 1 else max e1.job.level e2.job.level⟩,
          merge_files lt e1.contents e2.contents⟩ rest) (idx + 1) := by
  rw [finishLoop.eq_def]

theorem drainQueueLoop_nil (lt : K → K → Bool) (s : SorterState K)
    (h : s.push_queue = []) : drainQueueLoop lt s = s := by
  rw [drainQueueLoop.eq_def, h]

theorem drainQueueLoop_cons (lt : K → K → Bool) (s : SorterState K)
    (b : List K) (rest : List (List K)) (h : s.push_queue = b :: rest) :
    drainQueueLoop lt s = drainQueueLoop lt
      { s with push_queue := rest, waitroom := s.waitroom ++ [stdSort lt b] } := by
  rw [drainQueueLoop.eq_def, h]

theorem drainWaitroomLoop_nil (s : SorterState K) (h : s.waitroom = []) :
    drainWaitroomLoop s = s := by
  rw [drainWaitroomLoop.eq_def, h]

theorem drainWaitroomLoop_cons (s : SorterState K) (b : List K)
    (rest : List (List K)) (h : s.waitroom = b :: rest) :
    drainWaitroomLoop s = drainWaitroomLoop
      { s with waitroom := rest,
               JQ := insertJQ ⟨⟨s.job_idx, 0⟩, b⟩ s.JQ,
               job_idx := s.job_idx + 1, runs0 := s.runs0 + 1 } := by
  rw [drainWaitroomLoop.eq_def, h]

theorem stagerStep_live (lt : K → K → Bool) (s : SorterState K) :
    (liveRecords (stagerStep lt s)).Perm (liveRecords s) := by
  unfold stagerStep
  match h : s.push_queue with
  | [] => exact List.Perm.refl _
  | b :: rest =>
    apply perm_of_ms
    have hb : ((stdSort lt b : List K) : Multiset K) = (b : Multiset K) :=
      ms_of_perm (stdSort_perm lt b)
    simp only [liveRecords, h, List.flatten_cons, List.flatten_append,
      List.flatten_cons, List.flatten_nil, List.append_nil,
      ← Multiset.coe_add, hb]
    abel

theorem stagerStep_sorted (lt : K → K → Bool)
    (htr : ∀ a b c, lt b a = false → lt c b = false → lt c a = false)
    (hasym : ∀ a b, lt a b = true → lt b a = false)
    (s : SorterState K) (hs : RunsSorted lt s) :
    RunsSorted lt (stagerStep lt s) := by
  unfold stagerStep
  match h : s.push_queue with
  | [] => exact hs
  | b :: rest =>
    refine ⟨?_, hs.2⟩
    intro x hx
    rcases List.mem_append.mp hx with hx1 | hx1
    · exact hs.1 x hx1
    · rcases List.mem_singleton.mp hx1 with rfl
      exact stdSort_sorted lt htr hasym b

theorem runWriterStep_live (lt : K → K → Bool) (s : SorterState K) :
    (liveRecords (runWriterStepF lt true s)).Perm (liveRecords s) := by
  unfold runWriterStepF
  match h : s.waitroom with
  | [] => exact List.Perm.refl _
  | [b] => exact List.Perm.refl _
  | b1 :: b2 :: rest =>
    apply perm_of_ms
    have hm : ((merge_to_file lt b1 b2 : List K) : Multiset K) =
        ((b1 ++ b2 : List K) : Multiset K) :=
      ms_of_perm (merge_to_file_perm lt b1 b2)
    have hi := ms_of_perm
      (JQrecords_insertJQ ⟨s.job_idx, 0⟩ (merge_to_file lt b1 b2) s.JQ)
    simp only [if_true, liveRecords, h, List.flatten_cons,
      ← Multiset.coe_add, hi, hm]
    abel

theorem runWriterStep_sorted (lt : K → K → Bool)
    (htr : ∀ a b c, lt b a = false → lt c b = false → lt c a = false)
    (hasym : ∀ a b, lt a b = true → lt b a = false)
    (s : SorterState K) (hs : RunsSorted lt s) :
    RunsSorted lt (runWriterStepF lt true s) := by
  unfold runWriterStepF
  match h : s.waitroom with
  | [] => exact hs
  | [b] => exact hs
  | b1 :: b2 :: rest =>
    have hb1 : SortedRun lt b1 := hs.1 b1 (h ▸ List.mem_cons_self _ _)
    have hb2 : SortedRun lt b2 :=
      hs.1 b2 (h ▸ List.mem_cons_of_mem _ (List.mem_cons_self _ _))
    refine ⟨?_, ?_⟩
    · intro x hx
      exact hs.1 x (h ▸ List.mem_cons_of_mem _ (List.mem_cons_of_mem _ hx))
    · intro e he
      rcases (insertJQ_mem _ e _).mp he with rfl | he1
      · exact merge_to_file_sorted lt htr hasym b1 b2 hb1 hb2
      · exact hs.2 e he1

theorem balanceLoop_live (lt : K → K → Bool) (jq : List (Entry K)) (idx : Nat) :
    (JQrecords (balanceLoop lt jq idx).1).Perm (JQrecords jq) := by
  induction jq, idx using balanceLoop.induct lt with
  | case1 e1 e2 rest idx hlvl ih =>
    rw [balanceLoop_cons, if_pos hlvl]
    refine ih.trans ?_
    apply perm_of_ms
    have hm : ((merge_files lt e1.contents e2.contents : List K) : Multiset K) =
        ((e1.contents ++ e2.contents : List K) : Multiset K) := by
      rw [merge_files_eq]
      exact ms_of_perm (merge_to_file_perm lt _ _)
    have hi := ms_of_perm (JQrecords_insertJQ
      ⟨idx, e1.job.level + 1⟩ (merge_files lt e1.contents e2.contents) rest)
    simp only [JQrecords, List.map_cons, List.flatten_cons] at hi ⊢
    simp only [← Multiset.coe_add, hi, hm, JQrecords]
    abel
  | case2 e1 e2 rest idx hlvl =>
    rw [balanceLoop_cons, if_neg hlvl]
  | case3 jq idx h =>
    match jq, h with
    | [], _ => rw [balanceLoop_nil]
    | [e], _ => rw [balanceLoop_single]
    | e1 :: e2 :: rest, h => exact (h e1 e2 rest rfl).elim

theorem balanceLoop_sorted (lt : K → K → Bool)
    (htr : ∀ a b c, lt b a = false → lt c b = false → lt c a = false)
    (hasym : ∀ a b, lt a b = true → lt b a = false)
    (jq : List (Entry K)) (idx : Nat) :
    (∀ e ∈ jq, SortedRun lt e.contents) →
    ∀ e ∈ (balanceLoop lt jq idx).1, SortedRun lt e.contents := by
  induction jq, idx using balanceLoop.induct lt with
  | case1 e1 e2 rest idx hlvl ih =>
    intro hs
    rw [balanceLoop_cons, if_pos hlvl]
    apply ih
    intro e he
    rcases (insertJQ_mem _ e _).mp he with rfl | he1
    · rw [merge_files_eq]
      exact merge_to_file_sorted lt htr hasym _ _
        (hs e1 (List.mem_cons_self _ _))
        (hs e2 (List.mem_cons_of_mem _ (List.mem_cons_self _ _)))
    · exact hs e (List.mem_cons_of_mem _ (List.mem_cons_of_mem _ he1))
  | case2 e1 e2 rest idx hlvl =>
    intro hs
    rw [balanceLoop_cons, if_neg hlvl]
    exact hs
  | case3 jq idx h =>
    match jq, h with
    | [], _ => intro hs; rw [balanceLoop_nil]; exact hs
    | [e], _ => intro hs; rw [balanceLoop_single]; exact hs
    | e1 :: e2 :: rest, h => exact (h e1 e2 rest rfl).elim

theorem manageIter_live (lt : K → K → Bool) (s : SorterState K) :
    (liveRecords (manageIter lt s)).Perm (liveRecords s) := by
  unfold manageIter
  refine List.Perm.trans ?_
    ((runWriterStep_live lt (stagerStep lt s)).trans (stagerStep_live lt s))
  apply List.Perm.append_left
  exact balanceLoop_live lt _ _

theorem manageIter_sorted (lt : K → K → Bool)
    (htr : ∀ a b c, lt b a = false → lt c b = false → lt c a = false)
    (hasym : ∀ a b, lt a b = true → lt b a = false)
    (s : SorterState K) (hs : RunsSorted lt s) :
    RunsSorted lt (manageIter lt s) := by
  have h2 := runWriterStep_sorted lt htr hasym _
    (stagerStep_sorted lt htr hasym s hs)
  exact ⟨h2.1, balanceLoop_sorted lt htr hasym _ _ h2.2⟩

theorem runOps_live (lt : K → K → Bool) (ops : List (Op K)) :
    (liveRecords (runOps lt ops)).Perm (pushedRecords ops) := by
  suffices h : ∀ s : SorterState K,
      (liveRecords (ops.foldl (applyOp lt) s)).Perm
        (liveRecords s ++ pushedRecords ops) by
    simpa [runOps, liveRecords, initState, JQrecords] using h (initState K)
  induction ops with
  | nil => intro s; simp [pushedRecords]
  | cons op rest ih =>
    intro s
    simp only [List.foldl_cons]
    refine (ih (applyOp lt s op)).trans ?_
    cases op with
    | push b =>
      apply perm_of_ms
      simp only [applyOp, liveRecords, pushedRecords, List.flatten_append,
        List.flatten_cons, List.flatten_nil, List.append_nil,
        ← Multiset.coe_add]
      abel
    | tick =>
      simp only [pushedRecords, applyOp]
      exact (manageIter_live lt s).append_right _

theorem runOps_sorted (lt : K → K → Bool)
    (htr : ∀ a b c, lt b a = false → lt c b = false → lt c a = false)
    (hasym : ∀ a b, lt a b = true → lt b a = false)
    (ops : List (Op K)) : RunsSorted lt (runOps lt ops) := by
  suffices h : ∀ s : SorterState K, RunsSorted lt s →
      RunsSorted lt (ops.foldl (applyOp lt) s) by
    refine h (initState K) ?_
    constructor <;> intro x hx <;> simp [initState] at hx
  induction ops with
  | nil => intro s hs; exact hs
  | cons op rest ih =>
    intro s hs
    simp only [List.foldl_cons]
    refine ih (applyOp lt s op) ?_
    cases op with
    | push b => exact hs
    | tick => exact manageIter_sorted lt htr hasym s hs

/-! ### `finish` lemmas -/

theorem drainQueueLoop_queue (lt : K → K → Bool) (s : SorterState K) :
    (drainQueueLoop lt s).push_queue = [] ∧
    (drainQueueLoop lt s).JQ = s.JQ ∧
    (drainQueueLoop lt s).job_idx = s.job_idx := by
  induction s using drainQueueLoop.induct lt with
  | case1 x h =>
    rw [drainQueueLoop_nil lt x h]
    exact ⟨h, rfl, rfl⟩
  | case2 x b rest h ih =>
    rw [drainQueueLoop_cons lt x b rest h]
    exact ih

theorem drainQueueLoop_live (lt : K → K → Bool) (s : SorterState K) :
    (liveRecords (drainQueueLoop lt s)).Perm (liveRecords s) := by
  induction s using drainQueueLoop.induct lt with
  | case1 x h =>
    rw [drainQueueLoop_nil lt x h]
  | case2 x b rest h ih =>
    rw [drainQueueLoop_cons lt x b rest h]
    refine ih.trans ?_
    apply perm_of_ms
    have hb : ((stdSort lt b : List K) : Multiset K) = (b : Multiset K) :=
      ms_of_perm (stdSort_perm lt b)
    simp only [liveRecords, h, List.flatten_cons, List.flatten_append,
      List.flatten_nil, List.append_nil, ← Multiset.coe_add, hb]
    abel

theorem drainQueueLoop_sorted (lt : K → K → Bool)
    (htr : ∀ a b c, lt b a = false → lt c b = false → lt c a = false)
    (hasym : ∀ a b, lt a b = true → lt b a = false) (s : SorterState K) :
    RunsSorted lt s → RunsSorted lt (drainQueueLoop lt s) := by
  induction s using drainQueueLoop.induct lt with
  | case1 x h =>
    rw [drainQueueLoop_nil lt x h]
    exact id
  | case2 x b rest h ih =>
    rw [drainQueueLoop_cons lt x b rest h]
    intro hs
    refine ih ?_
    refine ⟨?_, hs.2⟩
    intro y hy
    rcases List.mem_append.mp hy with hy1 | hy1
    · exact hs.1 y hy1
    · rcases List.mem_singleton.mp hy1 with rfl
      exact stdSort_sorted lt htr hasym b

theorem drainWaitroomLoop_fields (s : SorterState K) :
    (drainWaitroomLoop s).waitroom = [] ∧
    (drainWaitroomLoop s).push_queue = s.push_queue := by
  induction s using drainWaitroomLoop.induct with
  | case1 x h =>
    rw [drainWaitroomLoop_nil x h]
    exact ⟨h, rfl⟩
  | case2 x b rest h ih =>
    rw [drainWaitroomLoop_cons x b rest h]
    exact ih

theorem drainWaitroomLoop_live (s : SorterState K) :
    (liveRecords (drainWaitroomLoop s)).Perm (liveRecords s) := by
  induction s using drainWaitroomLoop.induct with
  | case1 x h =>
    rw [drainWaitroomLoop_nil x h]
  | case2 x b rest h ih =>
    rw [drainWaitroomLoop_cons x b rest h]
    refine ih.trans ?_
    apply perm_of_ms
    have hi := ms_of_perm (JQrecords_insertJQ ⟨x.job_idx, 0⟩ b x.JQ)
    simp only [liveRecords, h, List.flatten_cons, ← Multiset.coe_add, hi]
    abel

theorem drainWaitroomLoop_sorted (lt : K → K → Bool) (s : SorterState K) :
    RunsSorted lt s → RunsSorted lt (drainWaitroomLoop s) := by
  induction s using drainWaitroomLoop.induct with
  | case1 x h =>
    rw [drainWaitroomLoop_nil x h]
    exact id
  | case2 x b rest h ih =>
    rw [drainWaitroomLoop_cons x b rest h]
    intro hs
    refine ih ?_
    refine ⟨fun y hy => hs.1 y (h ▸ List.mem_cons_of_mem _ hy), ?_⟩
    intro e he
    rcases (insertJQ_mem _ e _).mp he with rfl | he1
    · exact hs.1 b (h ▸ List.mem_cons_self _ _)
    · exact hs.2 e he1

theorem finishLoop_live (lt : K → K → Bool) (jq : List (Entry K)) (idx : Nat) :
    (JQrecords (finishLoop lt jq idx).1).Perm (JQrecords jq) := by
  suffices h : ∀ (n : Nat) (jq : List (Entry K)) (idx : Nat), jq.length ≤ n →
      (JQrecords (finishLoop lt jq idx).1).Perm (JQrecords jq) from
    h jq.length jq idx le_rfl
  intro n
  induction n with
  | zero =>
    intro jq idx hlen
    rcases List.eq_nil_of_length_eq_zero (Nat.le_zero.mp hlen) with rfl
    rw [finishLoop_nil]
  | succ n ih =>
    intro jq idx hlen
    match jq with
    | [] => rw [finishLoop_nil]
    | [e] => rw [finishLoop_single]
    | e1 :: e2 :: rest =>
      rw [finishLoop_cons]
      refine (ih _ _ ?_).trans ?_
      · rw [insertJQ_length]
        simp only [List.length_cons] at hlen
        omega
      · apply perm_of_ms
        have hm : ((merge_files lt e1.contents e2.contents : List K) : Multiset K) =
            ((e1.contents ++ e2.contents : List K) : Multiset K) := by
          rw [merge_files_eq]
          exact ms_of_perm (merge_to_file_perm lt _ _)
        have hi := ms_of_perm (JQrecords_insertJQ
          ⟨idx, if e1.job.level == e2.job.level then
              max e1.job.level e2.job.level + 1 else max e1.job.level e2.job.level⟩
          (merge_files lt e1.contents e2.contents) rest)
        simp only [JQrecords, List.map_cons, List.flatten_cons] at hi ⊢
        simp only [← Multiset.coe_add, hi, hm, JQrecords]
        abel

theorem finishLoop_sorted (lt : K → K → Bool)
    (htr : ∀ a b c, lt b a = false → lt c b = false → lt c a = false)
    (hasym : ∀ a b, lt a b = true → lt b a = false)
    (jq : List (Entry K)) (idx : Nat)
    (hs : ∀ e ∈ jq, SortedRun lt e.contents) :
    ∀ e ∈ (finishLoop lt jq idx).1, SortedRun lt e.contents := by
  revert jq idx hs
  suffices h : ∀ (n : Nat) (jq : List (Entry K)) (idx : Nat), jq.length ≤ n →
      (∀ e ∈ jq, SortedRun lt e.contents) →
      ∀ e ∈ (finishLoop lt jq idx).1, SortedRun lt e.contents from
    fun jq idx hs => h jq.length jq idx le_rfl hs
  intro n
  induction n with
  | zero =>
    intro jq idx hlen hs
    rcases List.eq_nil_of_length_eq_zero (Nat.le_zero.mp hlen) with rfl
    rw [finishLoop_nil]
    exact hs
  | succ n ih =>
    intro jq idx hlen hs
    match jq, hs with
    | [], hs => rw [finishLoop_nil]; exact hs
    | [e], hs => rw [finishLoop_single]; exact hs
    | e1 :: e2 :: rest, hs =>
      rw [finishLoop_cons]
      refine ih _ _ ?_ ?_
      · rw [insertJQ_length]
        simp only [List.length_cons] at hlen
        omega
      · intro e he
        rcases (insertJQ_mem _ e _).mp he with rfl | he1
        · rw [merge_files_eq]
          exact merge_to_file_sorted lt htr hasym _ _
            (hs e1 (List.mem_cons_self _ _))
            (hs e2 (List.mem_cons_of_mem _ (List.mem_cons_self _ _)))
        · exact hs e (List.mem_cons_of_mem _ (List.mem_cons_of_mem _ he1))

theorem finishLoop_length (lt : K → K → Bool) (jq : List (Entry K)) (idx : Nat) :
    (finishLoop lt jq idx).1.length = min jq.length 1 := by
  suffices h : ∀ (n : Nat) (jq : List (Entry K)) (idx : Nat), jq.length ≤ n →
      (finishLoop lt jq idx).1.length = min jq.length 1 from
    h jq.length jq idx le_rfl
  intro n
  induction n with
  | zero =>
    intro jq idx hlen
    rcases List.eq_nil_of_length_eq_zero (Nat.le_zero.mp hlen) with rfl
    rw [finishLoop_nil]
    simp
  | succ n ih =>
    intro jq idx hlen
    match jq with
    | [] => rw [finishLoop_nil]; simp
    | [e] => rw [finishLoop_single]; simp
    | e1 :: e2 :: rest =>
      rw [finishLoop_cons]
      have hlen2 : (insertJQ
          (⟨⟨idx, if e1.job.level == e2.job.level then
              max e1.job.level e2.job.level + 1 else max e1.job.level e2.job.level⟩,
            merge_files lt e1.contents e2.contents⟩ : Entry K) rest).length ≤ n := by
        rw [insertJQ_length]
        simp only [List.length_cons] at hlen
        omega
      rw [ih _ _ hlen2, insertJQ_length]
      simp only [List.length_cons]
      omega

theorem finishState_live (lt : K → K → Bool) (s : SorterState K) :
    (liveRecords (finishState lt s)).Perm (liveRecords s) := by
  unfold finishState
  refine List.Perm.trans ?_
    ((drainWaitroomLoop_live (drainQueueLoop lt s)).trans
      (drainQueueLoop_live lt s))
  apply List.Perm.append_left
  exact finishLoop_live lt _ _

theorem finishState_fields (lt : K → K → Bool) (s : SorterState K) :
    (finishState lt s).push_queue = [] ∧ (finishState lt s).waitroom = [] := by
  unfold finishState
  exact ⟨(drainWaitroomLoop_fields _).2.trans (drainQueueLoop_queue lt s).1,
    (drainWaitroomLoop_fields _).1⟩

theorem finishState_sorted (lt : K → K → Bool)
    (htr : ∀ a b c, lt b a = false → lt c b = false → lt c a = false)
    (hasym : ∀ a b, lt a b = true → lt b a = false)
    (s : SorterState K) (hs : RunsSorted lt s) :
    ∀ e ∈ (finishState lt s).JQ, SortedRun lt e.contents := by
  unfold finishState
  exact finishLoop_sorted lt htr hasym _ _
    (drainWaitroomLoop_sorted lt _ (drainQueueLoop_sorted lt htr hasym s hs)).2

/-! ### The binary-counter invariant of the Level Balancer -/


theorem sumWeights_cons (e : Entry K) (xs : List (Entry K)) :
    sumWeights (e :: xs) = 2 ^ e.job.level + sumWeights xs := by
  simp [sumWeights]

/-- A fresh entry whose level is below everything and whose id is above
everything is inserted at the front of the registry. -/
theorem insertJQ_front (e : Entry K) (jq : List (Entry K))
    (hlev : ∀ x ∈ jq, e.job.level ≤ x.job.level)
    (hid : ∀ x ∈ jq, x.job.id < e.job.id) :
    insertJQ e jq = e :: jq := by
  cases jq with
  | nil => rfl
  | cons x xs =>
    have h1 : jobLT x.job e.job = false := by
      have hl := hlev x (List.mem_cons_self x xs)
      have hi := hid x (List.mem_cons_self x xs)
      rcases hc : jobLT x.job e.job with _ | _
      · rfl
      · rw [jobLT_iff] at hc
        omega
    simp [insertJQ, h1]

/-- With strictly increasing levels the balancer has nothing to do: the
first two entries differ in level, so it breaks at once. -/
theorem balanceLoop_of_strict (lt : K → K → Bool) (jq : List (Entry K))
    (idx : Nat) (h : LevelsStrict jq) : balanceLoop lt jq idx = (jq, idx) := by
  match jq with
  | [] => rw [balanceLoop_nil]
  | [e] => rw [balanceLoop_single]
  | e1 :: e2 :: rest =>
    have hlt : e1.job.level < e2.job.level :=
      (List.pairwise_cons.mp h).1 e2 (List.mem_cons_self e2 rest)
    rw [balanceLoop_cons, if_neg ?_]
    simp only [beq_iff_eq]
    omega

/-- Carry propagation: inserting one fresh entry whose level is minimal
and whose id is maximal, then running the balancer loop, restores
strictly-distinct levels and preserves the total level-0 weight. -/
theorem balanceLoop_carry (lt : K → K → Bool) :
    ∀ (jq : List (Entry K)) (e : Entry K) (idx : Nat),
    LevelsStrict jq →
    (∀ x ∈ jq, e.job.level ≤ x.job.level) →
    (∀ x ∈ jq, x.job.id < e.job.id) →
    e.job.id < idx → idsBelow jq idx →
    LevelsStrict (balanceLoop lt (insertJQ e jq) idx).1 ∧
    idsBelow (balanceLoop lt (insertJQ e jq) idx).1
      (balanceLoop lt (insertJQ e jq) idx).2 ∧
    sumWeights (balanceLoop lt (insertJQ e jq) idx).1 =
      2 ^ e.job.level + sumWeights jq ∧
    idx ≤ (balanceLoop lt (insertJQ e jq) idx).2 := by
  intro jq
  induction jq with
  | nil =>
    intro e idx _ _ _ hidx _
    rw [show insertJQ e [] = [e] from rfl, balanceLoop_single]
    refine ⟨by simp [LevelsStrict], ?_, by simp [sumWeights], le_rfl⟩
    intro x hx
    rcases List.mem_singleton.mp hx with rfl
    exact hidx
  | cons x xs ih =>
    intro e idx hstrict hlev hid hidx hbelow
    rw [insertJQ_front e (x :: xs) hlev hid, balanceLoop_cons]
    by_cases hlvl : e.job.level = x.job.level
    · rw [if_pos (by simpa using hlvl)]
      have hxlt : ∀ y ∈ xs, x.job.level < y.job.level :=
        (List.pairwise_cons.mp hstrict).1
      have hres := ih ⟨⟨idx, e.job.level + 1⟩,
          merge_files lt e.contents x.contents⟩ (idx + 1)
        (List.Pairwise.of_cons hstrict)
        (fun y hy => by
          have := hxlt y hy
          simp only []
          omega)
        (fun y hy => hbelow y (List.mem_cons_of_mem x hy))
        (Nat.lt_succ_self idx)
        (fun y hy => Nat.lt_succ_of_lt (hbelow y (List.mem_cons_of_mem x hy)))
      refine ⟨hres.1, hres.2.1, ?_, Nat.le_of_succ_le hres.2.2.2⟩
      rw [hres.2.2.1, sumWeights_cons, hlvl]
      simp only [pow_succ]
      omega
    · rw [if_neg (by simpa using hlvl)]
      have hxlt : ∀ y ∈ xs, x.job.level < y.job.level :=
        (List.pairwise_cons.mp hstrict).1
      have hxe : e.job.level < x.job.level := by
        have := hlev x (List.mem_cons_self x xs)
        omega
      refine ⟨?_, ?_, by rw [sumWeights_cons], le_rfl⟩
      · refine List.pairwise_cons.mpr ⟨?_, hstrict⟩
        intro y hy
        rcases List.mem_cons.mp hy with rfl | hy1
        · exact hxe
        · exact Nat.lt_trans hxe (hxlt y hy1)
      · intro y hy
        rcases List.mem_cons.mp hy with rfl | hy1
        · exact hidx
        · exact hbelow y hy1


theorem runWriterStep_small (lt : K → K → Bool) (ok : Bool) (s : SorterState K)
    (h : s.waitroom.length ≤ 1) : runWriterStepF lt ok s = s := by
  unfold runWriterStepF
  match hw : s.waitroom with
  | [] => rfl
  | [b] => rfl
  | b1 :: b2 :: rest =>
    rw [hw] at h
    simp at h

theorem runWriterStep_pair (lt : K → K → Bool) (s : SorterState K)
    (b1 b2 : List K) (rest : List (List K)) (h : s.waitroom = b1 :: b2 :: rest) :
    runWriterStepF lt true s =
      { s with job_idx := s.job_idx + 1, waitroom := rest,
               JQ := insertJQ ⟨⟨s.job_idx, 0⟩, merge_to_file lt b1 b2⟩ s.JQ,
               runs0 := s.runs0 + 1 } := by
  unfold runWriterStepF
  rw [h]
  rfl

theorem manageIter_counter (lt : K → K → Bool) (s : SorterState K)
    (h : CounterInv s) : CounterInv (manageIter lt s) := by
  have hst : CounterInv (stagerStep lt s) := by
    unfold stagerStep
    match hq : s.push_queue with
    | [] => exact h
    | b :: rest => exact h
  have he : manageIter lt s = { runWriterStepF lt true (stagerStep lt s) with
      JQ := (balanceLoop lt (runWriterStepF lt true (stagerStep lt s)).JQ
        (runWriterStepF lt true (stagerStep lt s)).job_idx).1,
      job_idx := (balanceLoop lt (runWriterStepF lt true (stagerStep lt s)).JQ
        (runWriterStepF lt true (stagerStep lt s)).job_idx).2 } := rfl
  rw [he]
  generalize hs1 : stagerStep lt s = s1 at hst
  rcases hw : s1.waitroom with _ | ⟨b1, tail⟩
  · rw [runWriterStep_small lt true s1 (by rw [hw]; simp)]
    rw [balanceLoop_of_strict lt s1.JQ s1.job_idx hst.1]
    exact hst
  · rcases tail with _ | ⟨b2, rest⟩
    · rw [runWriterStep_small lt true s1 (by rw [hw]; simp)]
      rw [balanceLoop_of_strict lt s1.JQ s1.job_idx hst.1]
      exact hst
    · rw [runWriterStep_pair lt s1 b1 b2 rest hw]
      dsimp only
      have hres := balanceLoop_carry lt s1.JQ
        ⟨⟨s1.job_idx, 0⟩, merge_to_file lt b1 b2⟩ (s1.job_idx + 1)
        hst.1 (fun x _ => Nat.zero_le _) (fun x hx => hst.2.1 x hx)
        (Nat.lt_succ_self _)
        (fun x hx => Nat.lt_succ_of_lt (hst.2.1 x hx))
      refine ⟨hres.1, hres.2.1, ?_⟩
      show sumWeights (balanceLoop lt
        (insertJQ ⟨⟨s1.job_idx, 0⟩, merge_to_file lt b1 b2⟩ s1.JQ)
        (s1.job_idx + 1)).1 = s1.runs0 + 1
      rw [hres.2.2.1, hst.2.2]
      show 2 ^ (0 : Nat) + s1.runs0 = s1.runs0 + 1
      simp only [pow_zero]
      omega

theorem runOps_counter (lt : K → K → Bool) (ops : List (Op K)) :
    CounterInv (runOps lt ops) := by
  suffices h : ∀ s : SorterState K, CounterInv s →
      CounterInv (ops.foldl (applyOp lt) s) by
    refine h (initState K) ?_
    exact ⟨by simp [initState, LevelsStrict], fun e he => by simp [initState] at he,
      by simp [initState, sumWeights]⟩
  induction ops with
  | nil => intro s hs; exact hs
  | cons op rest ih =>
    intro s hs
    simp only [List.foldl_cons]
    refine ih (applyOp lt s op) ?_
    cases op with
    | push b => exact hs
    | tick => exact manageIter_counter lt s hs

/-- A registry with strictly increasing levels, all at least `c`, holds a
total weight of at least `2 ^ (c + length - 1)`. -/
theorem sumWeights_lower : ∀ (jq : List (Entry K)) (c : Nat),
    LevelsStrict jq → (∀ x ∈ jq, c ≤ x.job.level) → jq ≠ [] →
    2 ^ (c + (jq.length - 1)) ≤ sumWeights jq := by
  intro jq
  induction jq with
  | nil => intro c _ _ hne; exact absurd rfl hne
  | cons e xs ih =>
    intro c hstrict hlev _
    cases xs with
    | nil =>
      simp only [List.length_cons, List.length_nil, sumWeights_cons]
      have hc : c ≤ e.job.level := hlev e (List.mem_cons_self e [])
      have := Nat.pow_le_pow_right (show 0 < 2 by norm_num) hc
      simpa [sumWeights] using this
    | cons x ys =>
      have hxlt : ∀ y ∈ x :: ys, e.job.level < y.job.level :=
        (List.pairwise_cons.mp hstrict).1
      have hce : c ≤ e.job.level := hlev e (List.mem_cons_self e _)
      have hrec := ih (c + 1) (List.Pairwise.of_cons hstrict)
        (fun y hy => by have := hxlt y hy; omega) (by simp)
      have hexp : c + ((e :: x :: ys).length - 1) =
          (c + 1) + ((x :: ys).length - 1) := by
        simp only [List.length_cons]
        omega
      rw [hexp, sumWeights_cons]
      exact Nat.le_trans hrec (Nat.le_add_left _ _)

/-! ### Strict weak order consequences -/

/-- In a strict weak order (irreflexive, transitive, with transitive
incomparability), `less` is asymmetric. -/
theorem swo_asymm (lt : K → K → Bool) (hirr : ∀ a, lt a a = false)
    (htrans : ∀ a b c, lt a b = true → lt b c = true → lt a c = true)
    (a b : K) (h : lt a b = true) : lt b a = false := by
  rcases hc : lt b a with _ | _
  · rfl
  · have := htrans a b a h hc
    rw [hirr a] at this
    cases this

/-- In a strict weak order the negation of `less` is transitive (it is a
total preorder). -/
theorem swo_neg_trans (lt : K → K → Bool) (_hirr : ∀ a, lt a a = false)
    (htrans : ∀ a b c, lt a b = true → lt b c = true → lt a c = true)
    (hinc : ∀ a b c, lt a b = false → lt b a = false →
      lt b c = false → lt c b = false → lt a c = false ∧ lt c a = false)
    (a b c : K) (h1 : lt b a = false) (h2 : lt c b = false) :
    lt c a = false := by
  rcases hc : lt c a with _ | _
  · rfl
  · exfalso
    rcases hab : lt a b with _ | _
    · rcases hbc : lt b c with _ | _
      · have := (hinc a b c hab h1 hbc h2).2
        rw [hc] at this
        cases this
      · have := htrans b c a hbc hc
        rw [h1] at this
        cases this
    · have := htrans c a b hc hab
      rw [h2] at this
      cases this

/-! ### Claim theorems -/

/-- C4. Merge tie-break: in both `merge_to_file` and `merge_files`,
whenever `less(head1, head2)` is false for the current heads — including
when the two heads compare equal — the head of the second input is
written before the head of the first; in particular merging
single-element inputs `[x]` and `[y]` with neither `less(x,y)` nor
`less(y,x)` outputs `y` then `x`, so ties are not stable with respect to
input order. -/
theorem merge_tie_break {K : Type} (lt : K → K → Bool) :
    (∀ (x y : K) (l1 l2 : List K), lt x y = false →
        merge_to_file lt (x :: l1) (y :: l2) = y :: merge_to_file lt (x :: l1) l2) ∧
    (∀ (x y : K) (l1 l2 : List K), lt x y = false →
        merge_files lt (x :: l1) (y :: l2) = y :: merge_files lt (x :: l1) l2) ∧
    (∀ x y : K, lt x y = false → lt y x = false →
        merge_to_file lt [x] [y] = [y, x] ∧ merge_files lt [x] [y] = [y, x]) := by
  refine ⟨?_, ?_, ?_⟩
  · intro x y l1 l2 h
    simp [merge_to_file, h]
  · intro x y l1 l2 h
    simp [merge_files, h]
  · intro x y hxy _hyx
    constructor
    · simp [merge_to_file, hxy]
    · simp [merge_files, hxy]

/-- Witness for C4: two records with equal keys but distinguishable
payloads, in the style of `main.cpp`'s record type; the merge emits the
second input's record first. -/
theorem merge_tie_break_witness :
    pairLT (10, 1) (20, 1) = false ∧ pairLT (20, 1) (10, 1) = false ∧
    merge_to_file pairLT [(10, 1)] [(20, 1)] = [(20, 1), (10, 1)] ∧
    merge_files pairLT [(10, 1)] [(20, 1)] = [(20, 1), (10, 1)] := by
  refine ⟨by decide, by decide, ?_⟩
  have h := (merge_tie_break pairLT).2.2 (10, 1) (20, 1) (by decide) (by decide)
  exact ⟨h.1, h.2⟩

/-- C5. Registry ordering: `Job::operator<` orders entries by level
ascending and, among equal levels, by run id descending; insertion keeps
the registry sorted in this order; under this order the first two list
entries are below everything behind them (they are the two smallest);
and the Level Balancer merges exactly the first two entries when their
levels agree. -/
theorem registry_ordering :
    (∀ a b : Job, jobLT a b = true ↔
        a.level < b.level ∨ (a.level = b.level ∧ b.id < a.id)) ∧
    (∀ (K : Type) (e : Entry K) (l : List (Entry K)),
        SortedJQ l → SortedJQ (insertJQ e l)) ∧
    (∀ (K : Type) (e1 e2 : Entry K) (rest : List (Entry K)),
        SortedJQ (e1 :: e2 :: rest) → ∀ x ∈ rest,
          jobLT x.job e1.job = false ∧ jobLT x.job e2.job = false) ∧
    (∀ (K : Type) (lt : K → K → Bool) (e1 e2 : Entry K)
        (rest : List (Entry K)) (idx : Nat), e1.job.level = e2.job.level →
        balanceLoop lt (e1 :: e2 :: rest) idx =
          balanceLoop lt
            (insertJQ ⟨⟨idx, e1.job.level + 1⟩,
              merge_files lt e1.contents e2.contents⟩ rest) (idx + 1)) := by
  refine ⟨jobLT_iff, fun _ => insertJQ_sorted, ?_, ?_⟩
  · intro _ e1 e2 rest hsort x hx
    simp only [SortedJQ, List.pairwise_cons] at hsort
    exact ⟨hsort.1 x (List.mem_cons_of_mem e2 hx), hsort.2.1 x hx⟩
  · intro _ lt e1 e2 rest idx hlvl
    rw [balanceLoop, if_pos (by simpa using hlvl)]

/-- Witness for C5 at concrete jobs and a concrete two-entry registry. -/
theorem registry_ordering_witness :
    (jobLT ⟨5, 0⟩ ⟨2, 0⟩ = true ↔
      (0 : Nat) < 0 ∨ ((0 : Nat) = 0 ∧ (2 : Nat) < 5)) ∧
    SortedJQ (insertJQ (⟨⟨5, 0⟩, [1]⟩ : Entry Nat) []) ∧
    balanceLoop natLT [⟨⟨5, 0⟩, [1]⟩, ⟨⟨4, 0⟩, [2]⟩] 6 =
      balanceLoop natLT
        (insertJQ ⟨⟨6, 1⟩, merge_files natLT [1] [2]⟩ []) 7 := by
  refine ⟨registry_ordering.1 ⟨5, 0⟩ ⟨2, 0⟩, ?_, ?_⟩
  · exact registry_ordering.2.1 Nat ⟨⟨5, 0⟩, [1]⟩ [] (by simp [SortedJQ])
  · exact registry_ordering.2.2.2 Nat natLT ⟨⟨5, 0⟩, [1]⟩ ⟨⟨4, 0⟩, [2]⟩ [] 6 rfl

/-- C6. Level Balancer error atomicity: when the destination run file
cannot be opened for writing, or either source run file cannot be opened
for reading, the merge attempt is abandoned and both registry entries are
reinserted unchanged, so the registry after the failed attempt equals the
registry before it.  This holds both for the steady-state balancer
iteration (`balanceStepF`) and for the `finish` merge-loop iteration
(`finishStepF`). -/
theorem balancer_failure_atomic {K : Type} (lt : K → K → Bool)
    (okOut okIn : Bool) (e1 e2 : Entry K) (rest : List (Entry K)) (idx : Nat)
    (hsort : SortedJQ (e1 :: e2 :: rest)) (hne : e1.job.id ≠ e2.job.id)
    (hfail : okOut = false ∨ okIn = false) :
    balanceStepF lt okOut okIn (e1 :: e2 :: rest) idx =
      (if e1.job.level == e2.job.level then (e1 :: e2 :: rest, idx + 1)
       else (e1 :: e2 :: rest, idx)) ∧
    finishStepF lt okOut okIn (e1 :: e2 :: rest) idx = (e1 :: e2 :: rest, idx + 1) := by
  have hre := reinsert_two e1 e2 rest hsort hne
  rcases hfail with h | h
  · subst h
    constructor
    · by_cases hlvl : e1.job.level == e2.job.level
      · simp [balanceStepF, hlvl, hre]
      · simp [balanceStepF, hlvl]
    · simp [finishStepF, hre]
  · subst h
    constructor
    · by_cases hlvl : e1.job.level == e2.job.level
      · cases okOut <;> simp [balanceStepF, hlvl, hre]
      · simp [balanceStepF, hlvl]
    · cases okOut <;> simp [finishStepF, hre]

/-- Witness for C6: a concrete two-entry registry; a failed write open
leaves it untouched. -/
theorem balancer_failure_atomic_witness :
    SortedJQ [(⟨⟨3, 1⟩, [5]⟩ : Entry Nat), ⟨⟨2, 1⟩, [6]⟩] ∧
    balanceStepF natLT false true [⟨⟨3, 1⟩, [5]⟩, ⟨⟨2, 1⟩, [6]⟩] 4 =
      ([⟨⟨3, 1⟩, [5]⟩, ⟨⟨2, 1⟩, [6]⟩], 5) ∧
    finishStepF natLT false true [⟨⟨3, 1⟩, [5]⟩, ⟨⟨2, 1⟩, [6]⟩] 4 =
      ([⟨⟨3, 1⟩, [5]⟩, ⟨⟨2, 1⟩, [6]⟩], 5) := by
  have hsort : SortedJQ [(⟨⟨3, 1⟩, [5]⟩ : Entry Nat), ⟨⟨2, 1⟩, [6]⟩] := by
    simp [SortedJQ, jobLT]
  have h := balancer_failure_atomic natLT false true ⟨⟨3, 1⟩, [5]⟩ ⟨⟨2, 1⟩, [6]⟩
    [] 4 hsort (by decide) (Or.inl rfl)
  exact ⟨hsort, by simpa using h.1, h.2⟩

/-- C7 (counterexample to the claim as stated): the claim asserts that on
a Run Writer open failure the two batches have already been dequeued and
are lost, i.e. the waitroom afterwards would be the old waitroom with its
first two batches dropped.  At a concrete state with two staged batches
this is false: `continue` fires before any `waitroom.pop()`. -/
theorem run_writer_gap_cex :
    ¬ ((runWriterStepF natLT false wrState).waitroom =
        wrState.waitroom.drop 2) := by
  simp [runWriterStepF, wrState]

/-- C7 (amended). Run Writer failure path: the output-file open check
happens before any batch is dequeued, so on writer failure the Waiting
Room (and the registry, ingestion queue and run counter) are unchanged
and no batch is lost; only `job_idx` has already been advanced by
`Job j{job_idx++, 0}` when a pair was staged. -/
theorem run_writer_failure_frame {K : Type} (lt : K → K → Bool)
    (s : SorterState K) :
    (runWriterStepF lt false s).waitroom = s.waitroom ∧
    (runWriterStepF lt false s).JQ = s.JQ ∧
    (runWriterStepF lt false s).push_queue = s.push_queue ∧
    (runWriterStepF lt false s).runs0 = s.runs0 ∧
    (1 < s.waitroom.length →
      (runWriterStepF lt false s).job_idx = s.job_idx + 1) := by
  unfold runWriterStepF
  match h : s.waitroom with
  | [] => simp [h]
  | [b] => simp [h]
  | b1 :: b2 :: rest => simp [h]

/-- Witness for C7's amended theorem at the concrete state. -/
theorem run_writer_failure_frame_witness :
    (runWriterStepF natLT false wrState).waitroom = wrState.waitroom ∧
    1 < wrState.waitroom.length ∧
    (runWriterStepF natLT false wrState).job_idx = wrState.job_idx + 1 := by
  have h := run_writer_failure_frame natLT wrState
  exact ⟨h.1, by decide, h.2.2.2.2 (by decide)⟩

/-- C8. Empty drain: in an execution with no `push` at all, `finish`
reaches the final path computation with an empty registry; the model
returns `none` because `JQ.begin()->filename()` dereferences the end
iterator of the empty `std::multiset` (undefined behaviour) and no run
file was ever created — there is no path to a valid empty run. -/
theorem empty_drain_no_final_path (pre : String) {K : Type}
    (lt : K → K → Bool) (ops : List (Op K))
    (hnp : ∀ b : List K, Op.push b ∉ ops) :
    (finishState lt (runOps lt ops)).JQ = [] ∧
    finishPath pre lt (runOps lt ops) = none := by
  have hstep : applyOp lt (initState K) Op.tick = initState K := by
    show manageIter lt (initState K) = initState K
    simp [manageIter, stagerStep, runWriterStepF, balanceLoop, initState]
  have hrun : runOps lt ops = initState K := by
    have hall : ∀ op ∈ ops, op = Op.tick := by
      intro op hop
      cases op with
      | push b => exact absurd hop (hnp b)
      | tick => rfl
    unfold runOps
    induction ops with
    | nil => rfl
    | cons op rest ih =>
      have hop : op = Op.tick := hall op (List.mem_cons_self op rest)
      subst hop
      simp only [List.foldl_cons, hstep]
      exact ih (fun b hb => hnp b (List.mem_cons_of_mem _ hb))
        (fun op hop => hall op (List.mem_cons_of_mem _ hop))
  have hfin : (finishState lt (initState K)).JQ = [] := by
    simp [finishState, drainQueueLoop, drainWaitroomLoop, finishLoop, initState]
  rw [hrun]
  refine ⟨hfin, ?_⟩
  rw [finishPath, hfin]

/-- Witness for C8: a pure-tick execution. -/
theorem empty_drain_no_final_path_witness :
    (finishState natLT (runOps natLT [Op.tick, Op.tick])).JQ = [] ∧
    finishPath "temp/B" natLT (runOps natLT [Op.tick, Op.tick]) = none := by
  exact empty_drain_no_final_path "temp/B" natLT [Op.tick, Op.tick]
    (by intro b hb; simp at hb)

/-- C1. Global order: for every execution (any interleaving of pushes and
coordinator iterations, no file-open failure) in which the comparator is
a strict weak order, the sequence of records delivered by `execute` after
`finish` is non-decreasing: for every adjacent pair `(r_i, r_{i+1})`,
`less(r_{i+1}, r_i)` is false. -/
theorem global_order_property {K : Type} (lt : K → K → Bool)
    (hirr : ∀ a, lt a a = false)
    (htrans : ∀ a b c, lt a b = true → lt b c = true → lt a c = true)
    (hinc : ∀ a b c, lt a b = false → lt b a = false →
      lt b c = false → lt c b = false → lt a c = false ∧ lt c a = false)
    (ops : List (Op K)) (out : List K)
    (hout : executeRecords (finishState lt (runOps lt ops)) = some out) :
    out.Chain' (fun a b => lt b a = false) := by
  have htr := swo_neg_trans lt hirr htrans hinc
  have hasym := swo_asymm lt hirr htrans
  have hs := finishState_sorted lt htr hasym _ (runOps_sorted lt htr hasym ops)
  rcases hJQ : (finishState lt (runOps lt ops)).JQ with _ | ⟨e, rest⟩
  · rw [executeRecords, hJQ] at hout
    cases hout
  · rw [executeRecords, hJQ] at hout
    have hsor : SortedRun lt e.contents := hs e (hJQ ▸ List.mem_cons_self e rest)
    have hoc : e.contents = out := by
      simpa using hout
    subst hoc
    exact List.Pairwise.chain' hsor

/-- C2. Permutation: for every execution in which at least one record is
pushed (and no file open fails), `execute` delivers a list of records
that is a permutation of — the same multiset as — everything ever pushed:
nothing is lost, duplicated or altered by sorting, run writing or any
merge. -/
theorem permutation_property {K : Type} (lt : K → K → Bool)
    (ops : List (Op K)) (hne : pushedRecords ops ≠ []) :
    ∃ out, executeRecords (finishState lt (runOps lt ops)) = some out ∧
      out.Perm (pushedRecords ops) := by
  have hlive : (liveRecords (finishState lt (runOps lt ops))).Perm
      (pushedRecords ops) :=
    (finishState_live lt _).trans (runOps_live lt ops)
  have hf := finishState_fields lt (runOps lt ops)
  have hlive' : (JQrecords (finishState lt (runOps lt ops)).JQ).Perm
      (pushedRecords ops) := by
    have hemp : liveRecords (finishState lt (runOps lt ops)) =
        JQrecords (finishState lt (runOps lt ops)).JQ := by
      rw [liveRecords, hf.1, hf.2]
      simp
    rwa [hemp] at hlive
  have hlen : (finishState lt (runOps lt ops)).JQ.length ≤ 1 := by
    have : (finishState lt (runOps lt ops)).JQ =
        (finishLoop lt (drainWaitroomLoop
          (drainQueueLoop lt (runOps lt ops))).JQ
          (drainWaitroomLoop (drainQueueLoop lt (runOps lt ops))).job_idx).1 :=
      rfl
    rw [this, finishLoop_length]
    exact min_le_right _ _
  rcases hJQ : (finishState lt (runOps lt ops)).JQ with _ | ⟨e, rest⟩
  · rw [hJQ] at hlive'
    have : pushedRecords ops = [] := by
      simpa [JQrecords] using hlive'.symm.eq_nil
    exact absurd this hne
  · rw [hJQ] at hlen hlive'
    have hrest : rest = [] := by
      simp only [List.length_cons] at hlen
      exact List.eq_nil_of_length_eq_zero (by omega)
    subst hrest
    refine ⟨e.contents, ?_, ?_⟩
    · rw [executeRecords, hJQ]
    · simpa [JQrecords] using hlive'

/-- C3. Finalizer unconditional merge rule: after the drains, the
`finish` merge loop repeatedly pops the two smallest registry entries
regardless of level equality (when the registry is sorted, the first two
list entries are below everything else), merges them into a run at level
`max(level1, level2)`, incremented exactly when the two levels are equal,
and continues until exactly one entry remains, whose file path `finish`
returns. -/
theorem finish_unconditional_merge {K : Type} (lt : K → K → Bool) :
    (∀ (e1 e2 : Entry K) (rest : List (Entry K)) (idx : Nat),
      finishLoop lt (e1 :: e2 :: rest) idx =
        finishLoop lt (insertJQ ⟨⟨idx,
            if e1.job.level == e2.job.level then
              max e1.job.level e2.job.level + 1
            else max e1.job.level e2.job.level⟩,
          merge_files lt e1.contents e2.contents⟩ rest) (idx + 1)) ∧
    (∀ (e1 e2 : Entry K) (rest : List (Entry K)),
      SortedJQ (e1 :: e2 :: rest) →
      ∀ x ∈ e2 :: rest, jobLT x.job e1.job = false) ∧
    (∀ (jq : List (Entry K)) (idx : Nat), jq ≠ [] →
      (finishLoop lt jq idx).1.length = 1) ∧
    (∀ (pre : String) (s : SorterState K) (e : Entry K) (rest : List (Entry K)),
      (finishState lt s).JQ = e :: rest →
      finishPath pre lt s = some (pre ++ e.job.filename)) := by
  refine ⟨finishLoop_cons lt, ?_, ?_, ?_⟩
  · intro e1 e2 rest hsort x hx
    simp only [SortedJQ, List.pairwise_cons] at hsort
    exact hsort.1 x hx
  · intro jq idx hne
    rw [finishLoop_length]
    have : 0 < jq.length := List.length_pos.mpr hne
    omega
  · intro pre s e rest h
    simp only [finishPath, h]

/-- Witness for C3: two entries of unequal levels (0 and 3) are still
popped and merged, into level `max(0, 3) = 3`; a singleton registry ends
the loop and `finish` returns its entry's path. -/
theorem finish_unconditional_merge_witness :
    finishLoop natLT [⟨⟨2, 0⟩, [7]⟩, ⟨⟨1, 3⟩, [5]⟩] 4 =
      finishLoop natLT
        (insertJQ ⟨⟨4, 3⟩, merge_files natLT [7] [5]⟩ []) 5 ∧
    (finishLoop natLT [⟨⟨2, 0⟩, [7]⟩, ⟨⟨1, 3⟩, [5]⟩] 4).1.length = 1 ∧
    finishPath "temp/B" natLT
      (runOps natLT [Op.push [5], Op.tick]) = some "temp/B0_0.tmp" := by
  have h := finish_unconditional_merge natLT
  have h1 := h.1 ⟨⟨2, 0⟩, [7]⟩ ⟨⟨1, 3⟩, [5]⟩ [] 4
  have hrun : runOps natLT [Op.push [5], Op.tick] =
      ⟨[], [[5]], [], 0, 0⟩ := by
    simp [runOps, applyOp, initState, manageIter, stagerStep, runWriterStepF,
      stdSort, stdSortLe, balanceLoop_nil]
  have hJQ : (finishState natLT (runOps natLT [Op.push [5], Op.tick])).JQ =
      [⟨⟨0, 0⟩, [5]⟩] := by
    rw [hrun]
    simp only [finishState]
    rw [drainQueueLoop_nil natLT _ rfl, drainWaitroomLoop_cons _ [5] [] rfl,
      drainWaitroomLoop_nil _ rfl]
    simp [insertJQ, finishLoop_single]
  refine ⟨by simpa using h1, h.2.2.1 _ 4 (by simp), ?_⟩
  have := h.2.2.2 "temp/B" (runOps natLT [Op.push [5], Op.tick])
    ⟨⟨0, 0⟩, [5]⟩ [] hJQ
  simpa [Job.filename] using this

/-- Witness for C1: pushing `[1]` and `[2]` and running two coordinator
iterations delivers `[1, 2]`, a non-decreasing sequence. -/
theorem global_order_property_witness :
    executeRecords (finishState natLT (runOps natLT
      [Op.push [1], Op.push [2], Op.tick, Op.tick])) = some [1, 2] ∧
    List.Chain' (fun a b => natLT b a = false) [1, 2] := by
  have hout : executeRecords (finishState natLT (runOps natLT
      [Op.push [1], Op.push [2], Op.tick, Op.tick])) = some [1, 2] := by
    simp [runOps, applyOp, initState, manageIter, stagerStep, runWriterStepF,
      stdSort, stdSortLe, natLT, insertJQ, jobLT, merge_to_file,
      balanceLoop_nil, balanceLoop_single, finishState, drainQueueLoop_nil,
      drainWaitroomLoop_nil, finishLoop_single, executeRecords]
  refine ⟨hout, global_order_property natLT ?_ ?_ ?_ _ _ hout⟩
  · intro a
    simp [natLT]
  · intro a b c h1 h2
    simp only [natLT, decide_eq_true_eq] at *
    omega
  · intro a b c h1 h2 h3 h4
    simp only [natLT, decide_eq_false_iff_not] at *
    omega

/-- Witness for C2: one pushed batch `[5, 3]`, one coordinator iteration;
the delivered records are a permutation of the pushed ones. -/
theorem permutation_property_witness :
    pushedRecords ([Op.push [5, 3], Op.tick] : List (Op Nat)) = [5, 3] ∧
    ∃ out, executeRecords (finishState natLT
        (runOps natLT [Op.push [5, 3], Op.tick])) = some out ∧
      out.Perm (pushedRecords ([Op.push [5, 3], Op.tick] : List (Op Nat))) := by
  have hp : pushedRecords ([Op.push [5, 3], Op.tick] : List (Op Nat)) = [5, 3] := by
    simp [pushedRecords]
  exact ⟨hp, permutation_property natLT [Op.push [5, 3], Op.tick]
    (by rw [hp]; simp)⟩

/-- C9. Binary-counter invariant: after any failure-free execution
(pushes and whole coordinator iterations), the registry's entries have
pairwise distinct levels — each level holds at most one run — and hence
the number of live runs is at most one plus the base-2 logarithm of the
number of level-0 runs created so far. -/
theorem binary_counter_invariant {K : Type} (lt : K → K → Bool)
    (ops : List (Op K)) :
    (runOps lt ops).JQ.Pairwise (fun a b => a.job.level ≠ b.job.level) ∧
    (0 < (runOps lt ops).runs0 →
      (runOps lt ops).JQ.length ≤ Nat.log 2 (runOps lt ops).runs0 + 1) := by
  have h := runOps_counter lt ops
  constructor
  · exact h.1.imp Nat.ne_of_lt
  · intro hpos
    rcases hjq : (runOps lt ops).JQ with _ | ⟨e, rest⟩
    · simp
    · have hsum := sumWeights_lower (e :: rest) 0 (hjq ▸ h.1)
        (fun x _ => Nat.zero_le _) (by simp)
      have hlen : 2 ^ ((e :: rest).length - 1) ≤ (runOps lt ops).runs0 := by
        rw [← h.2.2, hjq]
        simpa using hsum
      have hlog := (Nat.pow_le_iff_le_log (by norm_num)
        (Nat.pos_iff_ne_zero.mp hpos)).mp hlen
      simp only [List.length_cons] at hlog ⊢
      omega

/-- Witness for C9: two batches pushed and two iterations create one
level-0 run; the registry has one entry and `1 ≤ log2 1 + 1`. -/
theorem binary_counter_invariant_witness :
    (runOps natLT [Op.push [1], Op.push [2], Op.tick, Op.tick]).runs0 = 1 ∧
    (runOps natLT [Op.push [1], Op.push [2], Op.tick, Op.tick]).JQ.length = 1 ∧
    (runOps natLT [Op.push [1], Op.push [2], Op.tick, Op.tick]).JQ.length ≤
      Nat.log 2 (runOps natLT [Op.push [1], Op.push [2], Op.tick, Op.tick]).runs0
        + 1 := by
  have hrun : runOps natLT [Op.push [1], Op.push [2], Op.tick, Op.tick] =
      ⟨[], [], [⟨⟨0, 0⟩, [1, 2]⟩], 1, 1⟩ := by
    simp [runOps, applyOp, initState, manageIter, stagerStep, runWriterStepF,
      stdSort, stdSortLe, natLT, insertJQ, merge_to_file, balanceLoop_nil,
      balanceLoop_single]
  have h := (binary_counter_invariant natLT
    [Op.push [1], Op.push [2], Op.tick, Op.tick]).2 (by rw [hrun]; norm_num)
  rw [hrun] at h ⊢
  exact ⟨rfl, rfl, h⟩

/-! ### Heap model of `push`'s copy (`new K[n]` + `std::copy`) -/


theorem stdCopy_frame : ∀ (n : Nat) (h : Nat → K) (src dst a : Nat),
    a < dst ∨ dst + n ≤ a → stdCopy h src dst n a = h a := by
  intro n
  induction n with
  | zero => intro h src dst a _; rfl
  | succ n ih =>
    intro h src dst a ha
    show stdCopy (heapUpdate h dst (h src)) (src + 1) (dst + 1) n a = h a
    rw [ih _ _ _ _ (by omega)]
    unfold heapUpdate
    rw [if_neg (by omega)]

theorem stdCopy_read : ∀ (n : Nat) (h : Nat → K) (src dst i : Nat),
    src + n ≤ dst → i < n → stdCopy h src dst n (dst + i) = h (src + i) := by
  intro n
  induction n with
  | zero => intro h src dst i _ hi; exact absurd hi (by omega)
  | succ n ih =>
    intro n2h src dst i hd hi
    show stdCopy (heapUpdate n2h dst (n2h src)) (src + 1) (dst + 1) n (dst + i)
      = n2h (src + i)
    cases i with
    | zero =>
      rw [stdCopy_frame n _ (src + 1) (dst + 1) (dst + 0) (by omega)]
      unfold heapUpdate
      rw [if_pos (by omega)]
      exact congrArg n2h (by omega)
    | succ j =>
      have hadd : dst + (j + 1) = (dst + 1) + j := by omega
      rw [hadd, ih _ (src + 1) (dst + 1) j (by omega) (by omega)]
      unfold heapUpdate
      rw [if_neg (by omega)]
      exact congrArg n2h (by omega)

/-- C10. push frame property: `push(from, to)` copies the caller's range
into a freshly allocated buffer before enqueueing and never writes to
the caller's range.  On the heap model, with the fresh buffer allocated
beyond all previously allocated memory (`hi ≤ fresh`, the freshness of
`new K[n]`), every address below `fresh` — in particular the whole
caller range `[lo, hi)` — is unchanged after `push`'s copy, so the
caller may immediately reuse or free its memory; and the enqueued buffer
`[fresh, fresh + (hi - lo))` holds exactly the records of the caller's
range. -/
theorem push_frame_property {K : Type} (h : Nat → K) (lo hi fresh : Nat)
    (hfresh : hi ≤ fresh) :
    (∀ a, a < fresh → (pushCopy h lo hi fresh).1 a = h a) ∧
    (∀ i, i < hi - lo →
      (pushCopy h lo hi fresh).1 (fresh + i) = h (lo + i)) := by
  constructor
  · intro a ha
    exact stdCopy_frame (hi - lo) h lo fresh a (Or.inl ha)
  · intro i hi2
    exact stdCopy_read (hi - lo) h lo fresh i (by omega) hi2

/-- Witness for C10: a two-record range at addresses 0 and 1, fresh
buffer at 5; the caller's records are untouched and duplicated. -/
theorem push_frame_property_witness :
    (2 : Nat) ≤ 5 ∧
    (pushCopy (fun a => a * 10) 0 2 5).1 0 = 0 ∧
    (pushCopy (fun a => a * 10) 0 2 5).1 1 = 10 ∧
    (pushCopy (fun a => a * 10) 0 2 5).1 5 = 0 ∧
    (pushCopy (fun a => a * 10) 0 2 5).1 6 = 10 := by
  have h := push_frame_property (fun a => a * 10) 0 2 5 (by norm_num)
  refine ⟨by norm_num, h.1 0 (by norm_num), h.1 1 (by norm_num), ?_, ?_⟩
  · simpa using h.2 0 (by norm_num)
  · simpa using h.2 1 (by norm_num)

end Sorter2048
